import Mathlib

/-!
Verification development for the `vc` Vault command-line client.

The Go sources are shallowly embedded below.  Pure Go functions become Lean
functions on `String` / `List Char`; Go maps become association lists whose
list order stands for the (unspecified) map iteration order; fallible Go code
returns `Except Err _` with `Err := String` (Go `error` values compared by
message); external collaborators (the Vault HTTP API, `encoding/json`,
`regexp`, the codec registry contents, `ioutil.TempFile`'s random name) are
parameters of the embedding.

Sources embedded: `client.go` (abspath, mounts, Stat, ReadDir, Glob and the
`os.FileInfo` wrappers), `template.go` (the second-pass render pipeline and
the lookup-table builders), `writer.go` (`SafeOutputWriter`), plus the parts
of Go's `path/filepath` and `strings` standard libraries that those functions
call (`Clean`, `Join`, `Split`, `Dir`, `Base`, `IsAbs`, `TrimLeft`,
`TrimRight`, `Replace`, `Contains`, `HasPrefix`, `HasSuffix`).
-/

namespace VC

abbrev Err := String

/-! ## Go `strings` / `path/filepath` primitives (Unix separator) -/

/-- Split a character list on `'/'`, keeping empty chunks,
as `strings.Split(s, "/")` does. -/
def splitSlash : List Char → List (List Char)
  | [] => [[]]
  | c :: rest =>
    if c = '/' then [] :: splitSlash rest
    else
      match splitSlash rest with
      | [] => [[c]]
      | g :: gs => (c :: g) :: gs

/-- Join chunks with `'/'`, as `strings.Join(gs, "/")` does. -/
def joinSlash : List (List Char) → List Char
  | [] => []
  | [g] => g
  | g :: g' :: gs => g ++ '/' :: joinSlash (g' :: gs)

def dotC : List Char := ['.']

def dotdotC : List Char := ['.', '.']

/-- One step of `filepath.Clean`'s output construction: push the next path
element onto the (reversed) output stack.  `rooted` tells whether the path
being cleaned is absolute; mirrors the element cases of Go's `Clean` loop
(skip `.`, backtrack or emit `..`, append a plain element). -/
def cleanOp (rooted : Bool) (stack : List (List Char)) (comp : List Char) :
    List (List Char) :=
  if comp = dotC then stack
  else if comp = dotdotC then
    match stack with
    | [] => if rooted then [] else [dotdotC]
    | top :: rest =>
      if rooted then rest
      else if top = dotdotC then dotdotC :: top :: rest
      else rest
  else comp :: stack

/-- The element-stack form of `filepath.Clean`: fold all path elements and
return them in path order. -/
def cleanStack (rooted : Bool) (comps : List (List Char)) : List (List Char) :=
  (comps.foldl (cleanOp rooted) []).reverse

/-- The non-empty path elements of a character list, in order. -/
def comps (p : List Char) : List (List Char) :=
  (splitSlash p).filter (fun g => !g.isEmpty)

/-- `filepath.Clean` on a character list (Unix rules): collapse separators,
drop `.` elements, resolve `..` against earlier elements, drop leading `..`
of a rooted path; empty result is `"."` (or `"/"` when rooted). -/
def cleanList (p : List Char) : List Char :=
  match p with
  | [] => dotC
  | c :: _ =>
    if c = '/' then '/' :: joinSlash (cleanStack true (comps p))
    else
      let stack := cleanStack false (comps p)
      if stack.isEmpty then dotC
      else joinSlash stack

/-- `filepath.Clean`. -/
def cleanStr (s : String) : String := String.mk (cleanList s.data)

/-- `filepath.IsAbs` (Unix): the path starts with a separator. -/
def isAbsStr (s : String) : Bool :=
  match s.data with
  | c :: _ => c == '/'
  | [] => false

/-- `filepath.Join(a, b)` for two elements: skip leading empty elements,
join the rest with `"/"` and `Clean` the result. -/
def joinStr (a b : String) : String :=
  if a = "" then
    if b = "" then "" else cleanStr b
  else cleanStr (String.mk (a.data ++ '/' :: b.data))

/-- `strings.TrimLeft(s, "/")`. -/
def trimLeftSlash (s : String) : String :=
  String.mk (s.data.dropWhile (fun c => c = '/'))

/-- `strings.TrimRight(s, "/")`. -/
def trimRightSlash (s : String) : String :=
  String.mk ((s.data.reverse.dropWhile (fun c => c = '/')).reverse)

/-- `filepath.Split(s)`: everything up to and including the final separator,
and the remainder. -/
def splitStr (s : String) : String × String :=
  let fileRev := s.data.reverse.takeWhile (fun c => c ≠ '/')
  (String.mk (s.data.take (s.data.length - fileRev.length)),
   String.mk fileRev.reverse)

/-- `filepath.Dir(s)` (Unix): `Clean` of the directory part of `Split`. -/
def dirStr (s : String) : String := cleanStr (splitStr s).1

/-- `filepath.Base(s)` (Unix). -/
def baseStr (s : String) : String :=
  if s = "" then "."
  else
    let t := s.data.reverse.dropWhile (fun c => c = '/')
    if t.isEmpty then "/"
    else String.mk (t.takeWhile (fun c => c ≠ '/')).reverse

/-! ## `Client.abspath` (client.go) -/

/-- `Client.abspath`: resolve `path` against the working path `basePath`;
absolute paths are cleaned, relative paths are joined onto the base first. -/
def abspathStr (basePath path : String) : String :=
  if isAbsStr path then cleanStr path
  else cleanStr (joinStr basePath path)

/-- `strings.HasPrefix(s, pre)`. -/
def hasPrefixStr (s pre : String) : Bool := pre.data.isPrefixOf s.data

/-- `strings.HasSuffix(s, suffix)`. -/
def hasSuffixStr (s suffix : String) : Bool := suffix.data.isSuffixOf s.data

/-- Split a character list on an arbitrary separator, keeping empty chunks,
as `strings.Split` does. -/
def splitOnChar (sep : Char) : List Char → List (List Char)
  | [] => [[]]
  | c :: rest =>
    if c = sep then [] :: splitOnChar sep rest
    else
      match splitOnChar sep rest with
      | [] => [[c]]
      | g :: gs => (c :: g) :: gs

/-- `strings.Split(k, ".")`. -/
def splitDots (k : String) : List String := (splitOnChar '.' k.data).map String.mk

/-- One step of `strings.Replace(s, pat, rep, -1)`: scan `s`, replacing every
non-overlapping occurrence of `pat` and never rescanning the replacement.
The fuel argument (instantiated with `s.length`) only makes the recursion
structural; one character is consumed per step because `pat` is non-empty at
every call site. -/
def replaceAllA (pat rep : List Char) : Nat → List Char → List Char
  | _, [] => []
  | 0, s => s
  | fuel + 1, c :: rest =>
    if pat.isPrefixOf (c :: rest) then
      rep ++ replaceAllA pat rep fuel ((c :: rest).drop pat.length)
    else c :: replaceAllA pat rep fuel rest

/-- `strings.Replace(s, pat, rep, -1)`.  The program only ever calls this
with non-empty patterns (placeholders and the one-character glob wildcards),
so the empty-pattern insertion behaviour of Go is not modelled. -/
def replaceAllStr (s pat rep : String) : String :=
  if pat = "" then s
  else String.mk (replaceAllA pat.data rep.data s.data.length s.data)

/-! ## Glob matching (client.go `globExpression`, `Glob` and the `regexp`
patterns it compiles) -/

/-- `globExpression` (client.go): `?` becomes `.` and `*` becomes `.*`. -/
def globExpression (pattern : String) : String :=
  replaceAllStr (replaceAllStr pattern "?" ".") "*" ".*"

/-- The characters `regexp.QuoteMeta` escapes. -/
def regexSpecial (c : Char) : Bool :=
  c = '\\' || c = '.' || c = '+' || c = '*' || c = '?' || c = '(' || c = ')' ||
  c = '|' || c = '[' || c = ']' || c = '\x7b' || c = '\x7d' || c = '^' || c = '$'

/-- One character of `regexp.QuoteMeta`'s output. -/
def escChar (c : Char) : List Char :=
  if regexSpecial c then ['\\', c] else [c]

/-- `regexp.QuoteMeta`. -/
def quoteMeta (s : String) : String := String.mk (s.data.flatMap escChar)

/-- One atom of the regular expressions `Glob` compiles: a literal
character, `.` (any one character) or `.*` (any run of characters). -/
inductive Atom where
  | lit (c : Char)
  | dot
  | star
deriving DecidableEq

/-- Parse the regex text `Glob` builds (only literals, escapes, `.` and `.*`
occur in it) into atoms.  This is the denotational model of the external
`regexp` package on that fragment. -/
def regexAtoms : List Char → List Atom
  | [] => []
  | c :: rest =>
    if c = '\\' then
      match rest with
      | [] => []
      | c' :: rest' => Atom.lit c' :: regexAtoms rest'
    else if c = '.' then
      match rest with
      | [] => [Atom.dot]
      | c' :: rest' =>
        if c' = '*' then Atom.star :: regexAtoms rest'
        else Atom.dot :: regexAtoms (c' :: rest')
    else Atom.lit c :: regexAtoms rest

/-- Full-anchored matching of an atom sequence against a character list
(the `^...$` semantics of the compiled pattern). -/
def matchAtoms : List Atom → List Char → Bool
  | [] => fun s => s.isEmpty
  | Atom.lit c :: as => fun s =>
    match s with
    | [] => false
    | c' :: s' => c == c' && matchAtoms as s'
  | Atom.dot :: as => fun s =>
    match s with
    | [] => false
    | _ :: s' => matchAtoms as s'
  | Atom.star :: as => fun s => s.tails.any (matchAtoms as)

/-- The filter `Glob` compiles for a root-level pattern:
`regexp.Compile("^/" + globExpression(base))`, matched with `MatchString`,
i.e. anchored at the start only — a trailing `.*` expresses the free tail. -/
def globRootFilter (base : String) (nm : String) : Bool :=
  matchAtoms (regexAtoms ('/' :: (globExpression base).data) ++ [Atom.star]) nm.data

/-- The filter `Glob` compiles for a non-root pattern:
`regexp.Compile("^" + QuoteMeta(dir) + "/" + globExpression(base) + "$")`,
anchored at both ends. -/
def globDirFilter (dir base : String) (nm : String) : Bool :=
  matchAtoms (regexAtoms ((quoteMeta dir).data ++ '/' :: (globExpression base).data)) nm.data

/-! ## Data model: mounts, secrets, entries (client.go) -/

/-- `api.MountOutput`, reduced to the one field the program reads
(`MountOutput.Type`). -/
structure MountOutput where
  mountType : String
deriving DecidableEq

/-- A Go `interface{}` value as it comes out of a secret payload or a JSON
document: a string, an array, a nested object, or JSON null / nil. -/
inductive GoValue where
  | str (s : String)
  | arr (elems : List GoValue)
  | obj (fields : List (String × GoValue))
  | null

/-- Association-list lookup, modelling a Go map read. -/
def assocFind {α : Type} : List (String × α) → String → Option α
  | [], _ => none
  | (k', v) :: rest, k => if k' = k then some v else assocFind rest k

/-- Association-list update, modelling a Go map write. -/
def assocSet {α : Type} : List (String × α) → String → α → List (String × α)
  | [], k, v => [(k, v)]
  | (k', v') :: rest, k, v =>
    if k' = k then (k', v) :: rest else (k', v') :: assocSet rest k v

/-- `api.Secret`, reduced to its `Data` map (which can itself be nil). -/
structure Secret where
  data : Option (List (String × GoValue))

/-- Read a key of `Secret.Data` (a read on a nil map yields nil). -/
def Secret.get (s : Secret) (k : String) : Option GoValue :=
  match s.data with
  | none => none
  | some m => assocFind m k

/-- The three `os.FileInfo` implementations of client.go: `rootInfo`,
`mountInfo` and `secretInfo`, as one sum type. -/
inductive Entry where
  | root
  | mount (m : MountOutput) (path : String)
  | secret (s : Secret) (path key : String)

/-- The `Name()` methods of the three info types. -/
def Entry.name : Entry → String
  | .root => "/"
  | .mount _ p => p
  | .secret _ p _ => p

/-- The `IsDir()` methods: root and mounts always, secrets when their key
ends in a separator. -/
def Entry.isDir : Entry → Bool
  | .root => true
  | .mount _ _ => true
  | .secret _ _ key => hasSuffixStr key "/"

/-- The `Mode()` methods: `0755` for `rootInfo` and `mountInfo`; for
`secretInfo`, `0755` when `IsDir()` and `0644` otherwise. -/
def Entry.mode : Entry → Nat
  | .root => 0o755
  | .mount _ _ => 0o755
  | .secret s p key => if (Entry.secret s p key).isDir then 0o755 else 0o644

/-! ## Client state, mount cache, Stat / ReadDir / Glob (client.go) -/

/-- `strings.Contains(l, pat)` on character lists: `pat` is a prefix of
some suffix. -/
def listContains (l pat : List Char) : Bool :=
  l.tails.any (fun t => pat.isPrefixOf t)

/-- `isPermissionDenied` (client.go):
`strings.Contains(err.Error(), "* permission denied")`. -/
def isPermissionDenied (e : Err) : Bool :=
  listContains e.data "* permission denied".data

def genericType : String := "generic"

/-- `mountRefresh = time.Minute`, in nanoseconds. -/
def mountRefresh : Int := 60000000000

/-- The mutable fields of `Client`: the working path and the mount cache. -/
structure ClientState where
  Path : String
  cachedMounts : List (String × MountOutput)
  cachedMountsTime : Int
deriving DecidableEq

/-- The remote Vault API as consumed by client.go: logical read, logical
list, and the sys list-mounts call. -/
structure Env where
  read : String → Except Err (Option Secret)
  list : String → Except Err (Option Secret)
  listMounts : Except Err (List (String × MountOutput))

/-- One remote call, for counting round trips. -/
inductive RemoteOp where
  | read (path : String)
  | list (path : String)
  | listMounts
deriving DecidableEq

/-- `Client.mounts` (client.go): refresh the cache when it is older than
`mountRefresh`, otherwise serve from the cache.  `now1` and `now2` are the
two `time.Now()` readings; the third component counts remote list-mounts
calls performed. -/
def mountsFn (listMounts : Except Err (List (String × MountOutput)))
    (now1 now2 : Int) (c : ClientState) :
    Except Err (List (String × MountOutput)) × ClientState × Nat :=
  if now1 - mountRefresh > c.cachedMountsTime then
    match listMounts with
    | .ok m => (.ok m, { c with cachedMounts := m, cachedMountsTime := now2 }, 1)
    | .error e => (.error e, c, 1)
  else (.ok c.cachedMounts, c, 0)

def errNotExist : Err := "file does not exist"

/-- The mount loop at the end of `Client.Stat`: the first mount whose
prefixed name equals the path, or extends `path + "/"`, yields a mount
entry. -/
def statMountScan : List (String × MountOutput) → String → Option Entry
  | [], _ => none
  | (name, m) :: rest, path =>
    if "/" ++ name = path then some (Entry.mount m ("/" ++ name))
    else if hasPrefixStr ("/" ++ name) (path ++ "/") then
      some (Entry.mount m (path ++ "/"))
    else statMountScan rest path

/-- The mount-check tail of `Client.Stat` (after the read and list probes). -/
def statMountPhase (env : Env) (now1 now2 : Int) (st : ClientState)
    (path : String) (tr0 : List RemoteOp) :
    Except Err Entry × ClientState × List RemoteOp :=
  match mountsFn env.listMounts now1 now2 st with
  | (.error e, st', n) =>
    if isPermissionDenied e then
      (.error errNotExist, st',
       tr0 ++ (if n = 0 then [] else [RemoteOp.listMounts]))
    else
      (.error e, st', tr0 ++ (if n = 0 then [] else [RemoteOp.listMounts]))
  | (.ok ms, st', n) =>
    match statMountScan ms path with
    | some ent =>
      (.ok ent, st', tr0 ++ (if n = 0 then [] else [RemoteOp.listMounts]))
    | none =>
      (.error errNotExist, st',
       tr0 ++ (if n = 0 then [] else [RemoteOp.listMounts]))

/-- The folder probe of `Client.Stat`: a logical list, skipped for paths
directly under the root. -/
def statListPhase (env : Env) (now1 now2 : Int) (st : ClientState)
    (path : String) (tr0 : List RemoteOp) :
    Except Err Entry × ClientState × List RemoteOp :=
  if (splitStr path).1 ≠ "/" then
    match env.list (trimLeftSlash path) with
    | .error e => (.error e, st, tr0 ++ [RemoteOp.list (trimLeftSlash path)])
    | .ok (some s) =>
      (.ok (Entry.secret s (trimRightSlash (cleanStr path) ++ "/")
        (trimRightSlash (cleanStr path) ++ "/")), st,
       tr0 ++ [RemoteOp.list (trimLeftSlash path)])
    | .ok none =>
      statMountPhase env now1 now2 st path
        (tr0 ++ [RemoteOp.list (trimLeftSlash path)])
  else statMountPhase env now1 now2 st path tr0

/-- `Client.Stat` (client.go): root fast path, then leaf probe (permission
denials swallowed), then folder probe, then mount scan. -/
def stat (env : Env) (now1 now2 : Int) (st : ClientState) (path0 : String) :
    Except Err Entry × ClientState × List RemoteOp :=
  if abspathStr st.Path path0 = "/" then (.ok Entry.root, st, [])
  else
    match env.read (trimLeftSlash (abspathStr st.Path path0)) with
    | .error e =>
      if isPermissionDenied e then
        statListPhase env now1 now2 st (abspathStr st.Path path0)
          [RemoteOp.read (trimLeftSlash (abspathStr st.Path path0))]
      else
        (.error e, st,
         [RemoteOp.read (trimLeftSlash (abspathStr st.Path path0))])
    | .ok (some s) =>
      (.ok (Entry.secret s (cleanStr (abspathStr st.Path path0))
        (baseStr (abspathStr st.Path path0))), st,
       [RemoteOp.read (trimLeftSlash (abspathStr st.Path path0))])
    | .ok none =>
      statListPhase env now1 now2 st (abspathStr st.Path path0)
        [RemoteOp.read (trimLeftSlash (abspathStr st.Path path0))]

/-- The parent-walk loop of `Client.ReadDir`'s mount scan: climb `Dir` steps
while the directory is at least as long as `path`; on a hit the previous
step is the child entry's path.  The fuel only bounds the loop; it is called
with more fuel than `Dir` can take steps. -/
def mountWalk (path : String) : Nat → String → String → Option String
  | 0, _, _ => none
  | fuel + 1, base, dir =>
    if path.data.length ≤ dir.data.length then
      if dir = path then some base
      else mountWalk path fuel dir (dirStr dir)
    else none

/-- The mount scan of `Client.ReadDir`: only mounts of the generic type are
considered, and each contributes the child segment of its path under
`path`. -/
def readDirMountScan (path : String) : List (String × MountOutput) → List Entry
  | [] => []
  | (name0, m) :: rest =>
    if m.mountType ≠ genericType then readDirMountScan path rest
    else
      match mountWalk path (("/" ++ trimRightSlash name0).data.length + 2)
          ("/" ++ trimRightSlash name0)
          (dirStr ("/" ++ trimRightSlash name0)) with
      | some base => Entry.mount m base :: readDirMountScan path rest
      | none => readDirMountScan path rest

/-- The per-key loop over `secret.Data["keys"]` in `Client.ReadDir`; the Go
type assertions panic on malformed data, modelled as a distinguished
error. -/
def keysEntriesAux (path : String) (s : Secret) :
    List GoValue → Except Err (List Entry)
  | [] => .ok []
  | GoValue.str key :: rest =>
    match keysEntriesAux path s rest with
    | .ok es =>
      .ok (Entry.secret s (cleanStr (joinStr (trimRightSlash path) key)) key :: es)
    | .error e => .error e
  | _ :: _ => .error "panic: interface conversion"

def keysEntries (path : String) (s : Secret) : Except Err (List Entry) :=
  match Secret.get s "keys" with
  | some (GoValue.arr vs) => keysEntriesAux path s vs
  | _ => .error "panic: interface conversion"

/-- The tail of `Client.ReadDir` once the mount listing (possibly empty
after a swallowed permission denial) is known: mount scan, then the logical
list whose keys become secret entries; list errors are fatal. -/
def readDirCont (env : Env) (st' : ClientState) (tr1 : List RemoteOp)
    (path : String) (ms : List (String × MountOutput)) :
    Except Err (List Entry) × ClientState × List RemoteOp :=
  match env.list (trimLeftSlash path) with
  | .error e =>
    (Except.error e, st', tr1 ++ [RemoteOp.list (trimLeftSlash path)])
  | .ok none =>
    (Except.ok (readDirMountScan path ms), st',
     tr1 ++ [RemoteOp.list (trimLeftSlash path)])
  | .ok (some s) =>
    match keysEntries path s with
    | .ok es =>
      (Except.ok (readDirMountScan path ms ++ es), st',
       tr1 ++ [RemoteOp.list (trimLeftSlash path)])
    | .error e =>
      (Except.error e, st', tr1 ++ [RemoteOp.list (trimLeftSlash path)])

/-- `Client.ReadDir` (client.go): mount scan (permission denials on the
mounts call swallowed) followed by a logical list whose keys become secret
entries; list errors are fatal. -/
def readDir (env : Env) (now1 now2 : Int) (st : ClientState) (path0 : String) :
    Except Err (List Entry) × ClientState × List RemoteOp :=
  match mountsFn env.listMounts now1 now2 st with
  | (.error e, st', n) =>
    if isPermissionDenied e then
      readDirCont env st' (if n = 0 then [] else [RemoteOp.listMounts])
        (abspathStr st.Path path0) []
    else (.error e, st', if n = 0 then [] else [RemoteOp.listMounts])
  | (.ok ms, st', n) =>
    readDirCont env st' (if n = 0 then [] else [RemoteOp.listMounts])
      (abspathStr st.Path path0) ms

/-- `Client.isGlob`: `strings.ContainsAny(pattern, "*?")`. -/
def isGlobPattern (pattern : String) : Bool :=
  pattern.data.any (fun c => c == '*' || c == '?')

/-- `Client.Glob` (client.go): fast path through `Stat` for wildcard-free
patterns; otherwise split the resolved pattern, reject wildcards in the
directory part, compile the base into a filter and filter `ReadDir`. -/
def glob (env : Env) (now1 now2 : Int) (st : ClientState) (pattern : String) :
    Except Err (List Entry) × ClientState × List RemoteOp :=
  if isGlobPattern pattern = false then
    match stat env now1 now2 st pattern with
    | (r, st', tr) => (r.map (fun i => [i]), st', tr)
  else if (splitStr (abspathStr st.Path pattern)).1.data.any
      (fun c => c == '*' || c == '?') then
    (.error "directory globbing not supported", st, [])
  else
    let base := (splitStr (abspathStr st.Path pattern)).2
    let dir0 := (splitStr (abspathStr st.Path pattern)).1
    let dir := if dir0 ≠ "/" then trimRightSlash dir0 else dir0
    let filt := if dir = "/" then globRootFilter base else globDirFilter dir base
    match readDir env now1 now2 st dir with
    | (.error e, st', tr) => (.error e, st', tr)
    | (.ok items, st', tr) =>
      (.ok (items.filter (fun i => filt i.name)), st', tr)

/-! ## Template rendering (template.go) -/

def CodecTypeKey : String := "__TYPE__"

/-- `strings.ToUpper` on the ASCII kind names used here. -/
def toUpperStr (s : String) : String := String.mk (s.data.map Char.toUpper)

/-- `TemplateCommand.randomIdentifier`; `r` is the random 8-byte hex text
drawn from `crypto/rand`. -/
def randomIdentifier (t : String) (r : String) : String :=
  "_VAULT_" ++ toUpperStr t ++ "_" ++ r ++ "_"

/-- The two lookup tables a render builds during its first pass. -/
structure TState where
  lookup : List (String × List (String × String))
  decode : List (String × String)

/-- `TemplateCommand.templateSecret`: record `(path, key)` and return its
placeholder, minting a fresh one on first sight. -/
def templateSecret (st : TState) (path key r : String) : TState × String :=
  let kv := (assocFind st.lookup path).getD []
  match assocFind kv key with
  | some placeholder => ({ st with lookup := assocSet st.lookup path kv }, placeholder)
  | none =>
    let ph := randomIdentifier "string" r
    ({ st with lookup := assocSet st.lookup path (assocSet kv key ph) }, ph)

/-- `TemplateCommand.templateNested`: like `templateSecret` with the
`nested` placeholder kind, sharing the same lookup table. -/
def templateNested (st : TState) (path key r : String) : TState × String :=
  let kv := (assocFind st.lookup path).getD []
  match assocFind kv key with
  | some placeholder => ({ st with lookup := assocSet st.lookup path kv }, placeholder)
  | none =>
    let ph := randomIdentifier "nested" r
    ({ st with lookup := assocSet st.lookup path (assocSet kv key ph) }, ph)

/-- `TemplateCommand.templateDecode`. -/
def templateDecode (st : TState) (path r : String) : TState × String :=
  match assocFind st.decode path with
  | some k => (st, k)
  | none =>
    let k := randomIdentifier "decode" r
    ({ st with decode := assocSet st.decode path k }, k)

/-- The per-key loop of `executeTemplateSecrets`: substitute every
`_VAULT_STRING_` placeholder of one path from the fetched payload. -/
def substSecretKV (path : String) (s : Secret) :
    List (String × String) → String → Except Err String
  | [], content => .ok content
  | (k, placeholder) :: rest, content =>
    if hasPrefixStr placeholder "_VAULT_STRING_" then
      match Secret.get s k with
      | some (GoValue.str v) =>
        substSecretKV path s rest (replaceAllStr content placeholder v)
      | _ => .error ("secret " ++ path ++ ": key \"" ++ k ++ "\" not found")
    else substSecretKV path s rest content

/-- `executeTemplateSecrets` (template.go): one remote read per entry of the
lookup table, failing fast on a nil secret; returns the substituted content
and the trace of read paths. -/
def runSecretsPass (read : String → Except Err (Option Secret)) :
    List (String × List (String × String)) → String →
      Except Err (String × List String)
  | [], content => .ok (content, [])
  | (path, kv) :: rest, content =>
    match read (trimLeftSlash path) with
    | .error e => .error e
    | .ok none => .error ("secret " ++ path ++ ": not found")
    | .ok (some s) =>
      match substSecretKV path s kv content with
      | .error e => .error e
      | .ok content' =>
        match runSecretsPass read rest content' with
        | .error e => .error e
        | .ok (c, tr) => .ok (c, trimLeftSlash path :: tr)

/-- The dotted-key walk of `executeTemplateNested`; Go's unchecked type
assertions panic on non-map intermediates, modelled as a distinguished
error. -/
def nestedWalk (path placeholder : String) :
    List String → Nat → List (String × GoValue) → String → Except Err String
  | [], _, _, content => .ok content
  | key :: restKeys, levels, mydata, content =>
    if 1 < levels then
      match assocFind mydata key with
      | none => .error ("nested " ++ path ++ ": key \"" ++ key ++ "\" not found")
      | some GoValue.null => .error ("nested " ++ path ++ ": key \"" ++ key ++ "\" not found")
      | some (GoValue.obj m) => nestedWalk path placeholder restKeys (levels - 1) m content
      | some _ => .error "panic: interface conversion"
    else
      match assocFind mydata key with
      | some (GoValue.str v) =>
        nestedWalk path placeholder restKeys (levels - 1) mydata
          (replaceAllStr content placeholder v)
      | _ => .error ("nested " ++ path ++ ": key \"" ++ key ++ "\" is not a string")

/-- The per-key loop of `executeTemplateNested`: for every `_VAULT_NESTED_`
placeholder, parse the first dot-segment's payload field as JSON (`parse`
models `json.Unmarshal`) and walk the remaining segments. -/
def substNestedKV (parse : String → Option (List (String × GoValue)))
    (path : String) (s : Secret) :
    List (String × String) → String → Except Err String
  | [], content => .ok content
  | (k, placeholder) :: rest, content =>
    if hasPrefixStr placeholder "_VAULT_NESTED_" then
      match splitDots k with
      | [] => .error "unreachable: strings.Split is never empty"
      | k0 :: krest =>
        match Secret.get s k0 with
        | some (GoValue.str txt) =>
          match parse txt with
          | none => .error ("nested " ++ path ++ "/" ++ k0 ++ ": failed to parse JSON")
          | some nestedData =>
            match nestedWalk path placeholder krest krest.length nestedData content with
            | .error e => .error e
            | .ok content' => substNestedKV parse path s rest content'
        | _ => .error "panic: interface conversion"
    else substNestedKV parse path s rest content

/-- `executeTemplateNested` (template.go): it iterates over the whole
lookup table again, issuing one more remote read per entry. -/
def runNestedPass (read : String → Except Err (Option Secret))
    (parse : String → Option (List (String × GoValue))) :
    List (String × List (String × String)) → String →
      Except Err (String × List String)
  | [], content => .ok (content, [])
  | (path, kv) :: rest, content =>
    match read (trimLeftSlash path) with
    | .error e => .error e
    | .ok none => .error ("nested " ++ path ++ ": not found")
    | .ok (some s) =>
      match substNestedKV parse path s kv content with
      | .error e => .error e
      | .ok content' =>
        match runNestedPass read parse rest content' with
        | .error e => .error e
        | .ok (c, tr) => .ok (c, trimLeftSlash path :: tr)

/-- A registered codec's `Marshal`, as the decode pass uses it. -/
abbrev CodecMarshal := String → List (String × GoValue) → Except Err String

/-- `executeTemplateDecodes` (template.go): one (untrimmed) remote read per
decode entry; the payload must carry the codec type marker, which is removed
before the registered codec marshals the remainder into the output. -/
def runDecodesPass (read : String → Except Err (Option Secret))
    (codecs : List (String × CodecMarshal)) :
    List (String × String) → String → Except Err (String × List String)
  | [], content => .ok (content, [])
  | (path, k) :: rest, content =>
    match read path with
    | .error e => .error e
    | .ok none => .error ("decode " ++ path ++ ": not found")
    | .ok (some s) =>
      match s.data with
      | none => .error ("decode " ++ path ++ ": not found")
      | some d =>
        match assocFind d CodecTypeKey with
        | some (GoValue.str enc) =>
          match assocFind codecs enc with
          | none => .error ("vc: no codec available for type \"" ++ enc ++ "\"")
          | some marshal =>
            match marshal path (d.filter (fun e => e.1 ≠ CodecTypeKey)) with
            | .error e => .error e
            | .ok b =>
              match runDecodesPass read codecs rest (replaceAllStr content k b) with
              | .error e => .error e
              | .ok (c, tr) => .ok (c, path :: tr)
        | _ => .error ("decode " ++ path ++ ": key " ++ CodecTypeKey ++ " not found")

/-- `executeTemplate`'s remote half (template.go): decode pass, then secrets
pass, then nested pass, threading the content and concatenating the read
traces. -/
def executeTemplatePipeline (read : String → Except Err (Option Secret))
    (parse : String → Option (List (String × GoValue)))
    (codecs : List (String × CodecMarshal))
    (lookup : List (String × List (String × String)))
    (decode : List (String × String)) (content : String) :
    Except Err (String × List String) :=
  match runDecodesPass read codecs decode content with
  | .error e => .error e
  | .ok (c1, t1) =>
    match runSecretsPass read lookup c1 with
    | .error e => .error e
    | .ok (c2, t2) =>
      match runNestedPass read parse lookup c2 with
      | .error e => .error e
      | .ok (c3, t3) => .ok (c3, t1 ++ t2 ++ t3)

/-- `TemplateCommand.Run` from the first template execution onwards: a
failed render prints the error and returns exit code 1 without writing;
a successful render writes the rendered bytes and returns 0.  `firstPass`
is the outcome of parsing and first-pass-executing the template. -/
def templateCommandRun (read : String → Except Err (Option Secret))
    (parse : String → Option (List (String × GoValue)))
    (codecs : List (String × CodecMarshal))
    (firstPass : Except Err (TState × String)) : Int × Option String :=
  match firstPass with
  | .error _ => (1, none)
  | .ok (st, content) =>
    match executeTemplatePipeline read parse codecs st.lookup st.decode content with
    | .error _ => (1, none)
    | .ok (out, _) => (0, some out)

/-! ## `SafeOutputWriter` (writer.go) -/

/-- A local file system: path, permission mode, content. -/
abbrev FS := List (String × Nat × String)

def fsGet (fs : FS) (p : String) : Option (Nat × String) := assocFind fs p

def fsSet (fs : FS) (p : String) (mode : Nat) (content : String) : FS :=
  assocSet fs p (mode, content)

/-- The `safeOutputWriter` struct: target name, temp-file name, requested
mode, and whether the temp file is currently open. -/
structure SafeOutputWriterState where
  name : String
  temp : String
  mode : Nat
  fileOpen : Bool
deriving DecidableEq

/-- `SafeOutputWriter(name, mode)` for a regular file name. -/
def sowNew (name : String) (mode : Nat) : SafeOutputWriterState :=
  { name := name, temp := "", mode := mode, fileOpen := false }

/-- `safeOutputWriter.Write` with `maybeOpenWriter` inlined: on the first
write, create the temp file (`ioutil.TempFile` picks `tempName`, a fresh
name in the target's directory) and chmod it to the requested mode; then
append the bytes. -/
def sowWrite (w : SafeOutputWriterState) (fs : FS) (tempName : String)
    (p : String) : SafeOutputWriterState × FS :=
  if w.fileOpen then
    match fsGet fs w.temp with
    | some (m, content) => (w, fsSet fs w.temp m (content ++ p))
    | none => (w, fs)
  else
    let w' := { w with temp := tempName, fileOpen := true }
    let fs' := fsSet fs tempName w.mode ""
    match fsGet fs' tempName with
    | some (m, content) => (w', fsSet fs' tempName m (content ++ p))
    | none => (w', fs')

/-- `safeOutputWriter.Close` (writer.go): close the temp file if one is
open.  Note the source performs no rename of `w.temp` to `w.name`. -/
def sowClose (w : SafeOutputWriterState) (fs : FS) :
    SafeOutputWriterState × FS :=
  if w.fileOpen then ({ w with fileOpen := false }, fs)
  else (w, fs)

/-- A path element that survives `Clean` untouched: non-empty, free of
separators, and neither `.` nor `..`. -/
def PlainComp (g : List Char) : Prop :=
  g ≠ [] ∧ '/' ∉ g ∧ g ≠ dotC ∧ g ≠ dotdotC

/-- The (reversed) output stack of a relative `Clean` in progress: plain
elements on top of a trailing run of `..` elements. -/
def NormalRev (s : List (List Char)) : Prop :=
  ∃ a b, s = a ++ b ∧ (∀ g ∈ a, PlainComp g) ∧ (∀ g ∈ b, g = dotdotC)

/-- The atom a single glob character compiles to. -/
def atomOf (c : Char) : Atom :=
  if c = '*' then Atom.star else if c = '?' then Atom.dot else Atom.lit c

/-- The atoms of a whole base-name glob pattern. -/
def atomsOfGlob (p : List Char) : List Atom := p.map atomOf

/-- What `globExpression` does to each character. -/
def expandChar (c : Char) : List Char :=
  if c = '?' then ['.'] else if c = '*' then ['.', '*'] else [c]

def expandGlob (p : List Char) : List Char := p.flatMap expandChar

/-- The satisfaction relation of an atom sequence, written out as the
specification describes it: a literal matches itself, `.` matches any one
character, `.*` matches any run. -/
def AtomSem : List Atom → List Char → Prop
  | [], s => s = []
  | Atom.lit c :: as, s => ∃ t, s = c :: t ∧ AtomSem as t
  | Atom.dot :: as, s => ∃ d t, s = d :: t ∧ AtomSem as t
  | Atom.star :: as, s => ∃ u t, s = u ++ t ∧ AtomSem as t

/-- The specification's reading of a base-name glob: `?` matches any single
character, `*` any run of characters, anything else itself. -/
def GlobSpec : List Char → List Char → Prop
  | [], s => s = []
  | c :: ps, s =>
    if c = '*' then ∃ u t, s = u ++ t ∧ GlobSpec ps t
    else if c = '?' then ∃ d t, s = d :: t ∧ GlobSpec ps t
    else ∃ t, s = c :: t ∧ GlobSpec ps t

/-! ## Concrete instances used by witnesses and counterexamples -/

/-- A remote store holding one secret with one string field. -/
def exRead : String → Except Err (Option Secret) :=
  fun _ => Except.ok (some ⟨some [("k", GoValue.str "v")]⟩)

/-- A remote store with no secrets at all. -/
def exReadNone : String → Except Err (Option Secret) := fun _ => Except.ok none

def exParse : String → Option (List (String × GoValue)) := fun _ => none

/-- The lookup table after a first pass that evaluated
`secret "secret/foo" "k"` once. -/
def exTState : TState :=
  (templateSecret { lookup := [], decode := [] } "secret/foo" "k"
    "ab12cd34ef56aa77").1

def exEnv : Env :=
  { read := fun p =>
      if p = "secret/foo" then Except.ok (some ⟨some [("k", GoValue.str "v")]⟩)
      else Except.ok none
  , list := fun _ => Except.ok none
  , listMounts := Except.ok [("secret/", ⟨"generic"⟩), ("sys/", ⟨"system"⟩)] }

def exState0 : ClientState :=
  { Path := "/", cachedMounts := [], cachedMountsTime := 0 }

/-- A client whose mount cache is fresh and already holds two mounts. -/
def exStateM : ClientState :=
  { Path := "/"
  , cachedMounts := [("secret/", ⟨"generic"⟩), ("sys/", ⟨"system"⟩)]
  , cachedMountsTime := 100 }

/-! ## Properties of the path primitives -/

theorem splitSlash_ne_nil (l : List Char) : splitSlash l ≠ [] := by
  induction l with
  | nil => simp [splitSlash]
  | cons c rest ih =>
    rw [splitSlash]
    by_cases hc : c = '/'
    · simp [hc]
    · simp only [if_neg hc]
      cases h : splitSlash rest <;> simp

theorem splitSlash_no_slash (l : List Char) : ∀ g ∈ splitSlash l, '/' ∉ g := by
  induction l with
  | nil =>
    intro g hg
    simp [splitSlash] at hg
    subst hg
    simp
  | cons c rest ih =>
    intro g hg
    rw [splitSlash] at hg
    by_cases hc : c = '/'
    · rw [if_pos hc] at hg
      rcases List.mem_cons.mp hg with rfl | hg2
      · simp
      · exact ih g hg2
    · rw [if_neg hc] at hg
      cases h : splitSlash rest with
      | nil => exact absurd h (splitSlash_ne_nil rest)
      | cons g0 gs =>
        rw [h] at hg
        rcases List.mem_cons.mp hg with rfl | hg2
        · intro hmem
          rcases List.mem_cons.mp hmem with heq | hmem2
          · exact hc heq.symm
          · exact ih g0 (h ▸ List.mem_cons_self g0 gs) hmem2
        · exact ih g (h ▸ List.mem_cons_of_mem g0 hg2)

theorem splitSlash_append (g l : List Char) (hg : '/' ∉ g) :
    splitSlash (g ++ l) =
      (g ++ (splitSlash l).headI) :: (splitSlash l).tail := by
  induction g with
  | nil =>
    cases h : splitSlash l with
    | nil => exact absurd h (splitSlash_ne_nil l)
    | cons a as => simp [h]
  | cons c g' ih =>
    have hc : ¬(c = '/') := fun h => hg (h ▸ List.mem_cons_self c g')
    have hg' : '/' ∉ g' := fun h => hg (List.mem_cons_of_mem c h)
    rw [List.cons_append, splitSlash, if_neg hc, ih hg']
    simp

theorem splitSlash_joinSlash (gs : List (List Char))
    (h1 : ∀ g ∈ gs, g ≠ []) (h2 : ∀ g ∈ gs, '/' ∉ g) (hne : gs ≠ []) :
    splitSlash (joinSlash gs) = gs := by
  induction gs with
  | nil => exact absurd rfl hne
  | cons g rest ih =>
    cases rest with
    | nil =>
      rw [joinSlash]
      have h := splitSlash_append g [] (h2 g (List.mem_cons_self g []))
      simpa [splitSlash] using h
    | cons g2 rest2 =>
      rw [joinSlash, splitSlash_append g _ (h2 g (List.mem_cons_self g _))]
      have hslash : splitSlash ('/' :: joinSlash (g2 :: rest2)) =
          [] :: splitSlash (joinSlash (g2 :: rest2)) := by
        rw [splitSlash]; simp
      rw [hslash,
        ih (fun x hx => h1 x (List.mem_cons_of_mem g hx))
           (fun x hx => h2 x (List.mem_cons_of_mem g hx)) (by simp)]
      simp

theorem joinSlash_cons (g : List Char) (gs : List (List Char)) :
    ∃ t, joinSlash (g :: gs) = g ++ t := by
  cases gs with
  | nil => exact ⟨[], by rw [joinSlash]; simp⟩
  | cons g2 gs2 => exact ⟨'/' :: joinSlash (g2 :: gs2), by rw [joinSlash]⟩

theorem cleanOp_plain (r : Bool) (acc : List (List Char)) (g : List Char)
    (hp : PlainComp g) : cleanOp r acc g = g :: acc := by
  obtain ⟨h1, h2, h3, h4⟩ := hp
  rw [cleanOp.eq_def, if_neg h3, if_neg h4]

theorem foldl_cleanOp_plain (r : Bool) (cs : List (List Char))
    (acc : List (List Char)) (h : ∀ g ∈ cs, PlainComp g) :
    cs.foldl (cleanOp r) acc = cs.reverse ++ acc := by
  induction cs generalizing acc with
  | nil => simp
  | cons g rest ih =>
    rw [List.foldl_cons, cleanOp_plain r acc g (h g (List.mem_cons_self g rest)),
      ih (g :: acc) (fun x hx => h x (List.mem_cons_of_mem g hx))]
    simp

theorem foldl_cleanOp_true_inv (cs : List (List Char)) :
    ∀ acc, (∀ g ∈ cs, g ≠ [] ∧ '/' ∉ g) → (∀ g ∈ acc, PlainComp g) →
      ∀ g ∈ cs.foldl (cleanOp true) acc, PlainComp g := by
  induction cs with
  | nil =>
    intro acc _ hacc g hg
    exact hacc g (by simpa using hg)
  | cons c rest ih =>
    intro acc hcs hacc g hg
    rw [List.foldl_cons] at hg
    apply ih _ (fun x hx => hcs x (List.mem_cons_of_mem c hx)) _ g hg
    intro g' hg'
    have hc := hcs c (List.mem_cons_self c rest)
    rw [cleanOp.eq_def] at hg'
    by_cases h1 : c = dotC
    · rw [if_pos h1] at hg'
      exact hacc g' hg'
    · rw [if_neg h1] at hg'
      by_cases h2 : c = dotdotC
      · rw [if_pos h2] at hg'
        cases acc with
        | nil => simp at hg'
        | cons top rest2 =>
          simp only [if_pos rfl] at hg'
          exact hacc g' (List.mem_cons_of_mem top hg')
      · rw [if_neg h2] at hg'
        rcases List.mem_cons.mp hg' with rfl | hmem
        · exact ⟨hc.1, hc.2, h1, h2⟩
        · exact hacc g' hmem

theorem cleanStack_true_plain (cs : List (List Char))
    (h : ∀ g ∈ cs, g ≠ [] ∧ '/' ∉ g) :
    ∀ g ∈ cleanStack true cs, PlainComp g := by
  intro g hg
  rw [cleanStack] at hg
  exact foldl_cleanOp_true_inv cs [] h (by simp) g (List.mem_reverse.mp hg)

theorem cleanStack_true_plain_id (cs : List (List Char))
    (h : ∀ g ∈ cs, PlainComp g) : cleanStack true cs = cs := by
  rw [cleanStack, foldl_cleanOp_plain true cs [] h]
  simp

theorem foldl_cleanOp_false_inv (cs : List (List Char)) :
    ∀ acc, (∀ g ∈ cs, g ≠ [] ∧ '/' ∉ g) → NormalRev acc →
      NormalRev (cs.foldl (cleanOp false) acc) := by
  induction cs with
  | nil =>
    intro acc _ hacc
    simpa using hacc
  | cons c rest ih =>
    intro acc hcs hacc
    rw [List.foldl_cons]
    apply ih _ (fun x hx => hcs x (List.mem_cons_of_mem c hx))
    have hc := hcs c (List.mem_cons_self c rest)
    obtain ⟨a, b, rfl, ha, hb⟩ := hacc
    rw [cleanOp.eq_def]
    by_cases h1 : c = dotC
    · rw [if_pos h1]
      exact ⟨a, b, rfl, ha, hb⟩
    · rw [if_neg h1]
      by_cases h2 : c = dotdotC
      · rw [if_pos h2]
        cases a with
        | nil =>
          cases b with
          | nil => exact ⟨[], [dotdotC], by simp, by simp, by simp⟩
          | cons b0 bs =>
            have hb0 : b0 = dotdotC := hb b0 (List.mem_cons_self b0 bs)
            simp only [List.nil_append, Bool.false_eq_true, if_false, if_pos hb0]
            exact ⟨[], dotdotC :: b0 :: bs, rfl, by simp,
              fun g hg => by
                rcases List.mem_cons.mp hg with rfl | hg2
                · rfl
                · exact hb g hg2⟩
        | cons a0 as =>
          have ha0 := ha a0 (List.mem_cons_self a0 as)
          simp only [List.cons_append, Bool.false_eq_true, if_false,
            if_neg ha0.2.2.2]
          exact ⟨as, b, rfl, fun x hx => ha x (List.mem_cons_of_mem a0 hx), hb⟩
      · rw [if_neg h2]
        exact ⟨c :: a, b, by simp, fun x hx => by
          rcases List.mem_cons.mp hx with rfl | hx2
          · exact ⟨hc.1, hc.2, h1, h2⟩
          · exact ha x hx2, hb⟩

theorem cleanStack_false_normal (cs : List (List Char))
    (h : ∀ g ∈ cs, g ≠ [] ∧ '/' ∉ g) :
    ∃ k plains, cleanStack false cs = List.replicate k dotdotC ++ plains ∧
      ∀ g ∈ plains, PlainComp g := by
  obtain ⟨a, b, heq, ha, hb⟩ :=
    foldl_cleanOp_false_inv cs [] h ⟨[], [], rfl, by simp, by simp⟩
  refine ⟨b.length, a.reverse, ?_, fun g hg => ha g (List.mem_reverse.mp hg)⟩
  rw [cleanStack, heq, List.reverse_append]
  congr 1
  rw [List.eq_replicate_iff]
  exact ⟨by simp, fun g hg => hb g (List.mem_reverse.mp hg)⟩

theorem foldl_cleanOp_false_dotdot (k : Nat) :
    ∀ m, (List.replicate k dotdotC).foldl (cleanOp false)
        (List.replicate m dotdotC) = List.replicate (k + m) dotdotC := by
  induction k with
  | zero => intro m; simp
  | succ k ih =>
    intro m
    rw [List.replicate_succ, List.foldl_cons]
    have hstep : cleanOp false (List.replicate m dotdotC) dotdotC =
        List.replicate (m + 1) dotdotC := by
      rw [cleanOp.eq_def, if_neg (by decide : ¬(dotdotC = dotC)), if_pos rfl]
      cases m with
      | zero => simp
      | succ m =>
        rw [List.replicate_succ]
        simp [List.replicate_succ]
    rw [hstep, ih (m + 1)]
    congr 1
    omega

theorem cleanStack_false_normal_id (k : Nat) (plains : List (List Char))
    (hp : ∀ g ∈ plains, PlainComp g) :
    cleanStack false (List.replicate k dotdotC ++ plains) =
      List.replicate k dotdotC ++ plains := by
  have h0 : (List.replicate 0 dotdotC : List (List Char)) = [] := rfl
  rw [cleanStack, List.foldl_append, ← h0, foldl_cleanOp_false_dotdot k 0,
    foldl_cleanOp_plain false plains _ hp]
  rw [List.reverse_append, List.reverse_reverse, List.reverse_replicate]
  simp

theorem comps_mem (p : List Char) : ∀ g ∈ comps p, g ≠ [] ∧ '/' ∉ g := by
  intro g hg
  rw [comps] at hg
  refine ⟨?_, splitSlash_no_slash p g (List.mem_of_mem_filter hg)⟩
  have h1 := List.of_mem_filter hg
  cases g with
  | nil => simp at h1
  | cons _ _ => simp

theorem comps_slash_cons (x : List Char) : comps ('/' :: x) = comps x := by
  rw [comps, comps, splitSlash]
  simp

theorem comps_joinSlash (gs : List (List Char))
    (h1 : ∀ g ∈ gs, g ≠ []) (h2 : ∀ g ∈ gs, '/' ∉ g) (hne : gs ≠ []) :
    comps (joinSlash gs) = gs := by
  rw [comps, splitSlash_joinSlash gs h1 h2 hne]
  apply List.filter_eq_self.mpr
  intro g hg
  cases hg2 : g with
  | nil => exact absurd hg2 (h1 g hg)
  | cons _ _ => simp

theorem comps_nil : comps [] = [] := by decide

theorem cleanList_rooted (rest : List Char) :
    cleanList ('/' :: rest) =
      '/' :: joinSlash (cleanStack true (comps ('/' :: rest))) := by
  rw [cleanList]
  simp

theorem cleanList_idem (p : List Char) : cleanList (cleanList p) = cleanList p := by
  cases p with
  | nil => decide
  | cons c p' =>
    by_cases hc : c = '/'
    · subst hc
      have hcs := comps_mem ('/' :: p')
      have hplain := cleanStack_true_plain (comps ('/' :: p')) hcs
      rw [cleanList_rooted p', cleanList_rooted, comps_slash_cons]
      cases hstack : cleanStack true (comps ('/' :: p')) with
      | nil => rfl
      | cons g gs =>
        rw [comps_joinSlash (g :: gs)
          (fun x hx => (hplain x (hstack ▸ hx)).1)
          (fun x hx => (hplain x (hstack ▸ hx)).2.1) (by simp),
          cleanStack_true_plain_id (g :: gs) (fun x hx => hplain x (hstack ▸ hx))]
    · have hcs := comps_mem (c :: p')
      obtain ⟨k, plains, hnf, hp⟩ := cleanStack_false_normal (comps (c :: p')) hcs
      have houter : cleanList (c :: p') =
          if (cleanStack false (comps (c :: p'))).isEmpty then dotC
          else joinSlash (cleanStack false (comps (c :: p'))) := by
        rw [cleanList, if_neg hc]
      by_cases hemp : cleanStack false (comps (c :: p')) = []
      · rw [houter, hemp]
        decide
      · have helem : ∀ g ∈ cleanStack false (comps (c :: p')), g ≠ [] ∧ '/' ∉ g := by
          intro g hg
          rw [hnf] at hg
          rcases List.mem_append.mp hg with hg1 | hg2
          · have := List.eq_of_mem_replicate hg1
            subst this
            exact ⟨by decide, by decide⟩
          · exact ⟨(hp g hg2).1, (hp g hg2).2.1⟩
        rw [houter, if_neg (by simpa [List.isEmpty_iff] using hemp)]
        cases hstack : cleanStack false (comps (c :: p')) with
        | nil => exact absurd hstack hemp
        | cons g0 gs =>
          obtain ⟨t, ht⟩ := joinSlash_cons g0 gs
          have hg0 := helem g0 (hstack ▸ List.mem_cons_self g0 gs)
          obtain ⟨ch, g0', rfl⟩ : ∃ ch g0', g0 = ch :: g0' := by
            cases g0 with
            | nil => exact absurd rfl hg0.1
            | cons a b => exact ⟨a, b, rfl⟩
          have hch : ¬(ch = '/') := fun h =>
            hg0.2 (h ▸ List.mem_cons_self ch g0')
          rw [ht, List.cons_append, cleanList, if_neg hch]
          have hcomps : comps (ch :: (g0' ++ t)) = (ch :: g0') :: gs := by
            rw [← List.cons_append, ← ht]
            exact comps_joinSlash ((ch :: g0') :: gs)
              (fun x hx => (helem x (hstack ▸ hx)).1)
              (fun x hx => (helem x (hstack ▸ hx)).2) (by simp)
          rw [hcomps, ← hstack, hnf, cleanStack_false_normal_id k plains hp,
            ← hnf, hstack]
          simp only [List.isEmpty_cons, Bool.false_eq_true, if_false]
          rw [ht, List.cons_append]

theorem cleanStr_idem (s : String) : cleanStr (cleanStr s) = cleanStr s :=
  congrArg String.mk (cleanList_idem s.data)

theorem isAbsStr_data (s : String) (h : isAbsStr s = true) :
    ∃ rest, s.data = '/' :: rest := by
  unfold isAbsStr at h
  split at h
  next c rest heq => exact ⟨rest, by rw [heq, eq_of_beq h]⟩
  next => simp at h

theorem isAbsStr_cleanStr (s : String) (h : isAbsStr s = true) :
    isAbsStr (cleanStr s) = true := by
  obtain ⟨rest, hd⟩ := isAbsStr_data s h
  rw [cleanStr, hd, cleanList_rooted]
  rfl

theorem isAbsStr_ne_empty (s : String) (h : isAbsStr s = true) : s ≠ "" := by
  obtain ⟨rest, hd⟩ := isAbsStr_data s h
  intro he
  rw [he] at hd
  simp at hd

/-- The amended idempotence property: for an absolute working path (the only
kind `NewClient` and `SetPath` ever install), `abspath` is idempotent. -/
theorem abspathStr_idem (base p : String) (hb : isAbsStr base = true) :
    abspathStr base (abspathStr base p) = abspathStr base p := by
  by_cases hp : isAbsStr p = true
  · have h1 : abspathStr base p = cleanStr p := by
      rw [abspathStr, if_pos hp]
    rw [h1, abspathStr, if_pos (isAbsStr_cleanStr p hp)]
    exact cleanStr_idem p
  · have h1 : abspathStr base p = cleanStr (joinStr base p) := by
      rw [abspathStr, if_neg hp]
    have hbne : ¬(base = "") := isAbsStr_ne_empty base hb
    obtain ⟨rest, hd⟩ := isAbsStr_data base hb
    have hxabs : isAbsStr (String.mk (base.data ++ '/' :: p.data)) = true := by
      rw [hd]
      rfl
    have hjoin : joinStr base p = cleanStr (String.mk (base.data ++ '/' :: p.data)) := by
      rw [joinStr, if_neg hbne]
    have habs2 : isAbsStr (cleanStr (joinStr base p)) = true := by
      rw [hjoin, cleanStr_idem]
      exact isAbsStr_cleanStr _ hxabs
    rw [h1, abspathStr, if_pos habs2, cleanStr_idem]

/-! ## Template pipeline lemmas -/

theorem runSecretsPass_trace (read : String → Except Err (Option Secret)) :
    ∀ (lookup : List (String × List (String × String))) (content out : String)
      (tr : List String),
      runSecretsPass read lookup content = .ok (out, tr) →
      tr = lookup.map (fun e => trimLeftSlash e.1) := by
  intro lookup
  induction lookup with
  | nil =>
    intro content out tr h
    rw [runSecretsPass] at h
    simp only [Except.ok.injEq, Prod.mk.injEq] at h
    simp [h.2.symm]
  | cons hd rest ih =>
    intro content out tr h
    obtain ⟨path, kv⟩ := hd
    cases hr : read (trimLeftSlash path) with
    | error e =>
      simp [runSecretsPass, hr] at h
    | ok o =>
      cases o with
      | none =>
        simp [runSecretsPass, hr] at h
      | some sec =>
        cases hsub : substSecretKV path sec kv content with
        | error e =>
          simp [runSecretsPass, hr, hsub] at h
        | ok c2 =>
          cases hrec : runSecretsPass read rest c2 with
          | error e =>
            simp [runSecretsPass, hr, hsub, hrec] at h
          | ok pr =>
            obtain ⟨c3, tr3⟩ := pr
            simp only [runSecretsPass, hr, hsub, hrec, Except.ok.injEq,
              Prod.mk.injEq] at h
            rw [← h.2, List.map_cons, ih c2 c3 tr3 hrec]

theorem runNestedPass_trace (read : String → Except Err (Option Secret))
    (parse : String → Option (List (String × GoValue))) :
    ∀ (lookup : List (String × List (String × String))) (content out : String)
      (tr : List String),
      runNestedPass read parse lookup content = .ok (out, tr) →
      tr = lookup.map (fun e => trimLeftSlash e.1) := by
  intro lookup
  induction lookup with
  | nil =>
    intro content out tr h
    rw [runNestedPass] at h
    simp only [Except.ok.injEq, Prod.mk.injEq] at h
    simp [h.2.symm]
  | cons hd rest ih =>
    intro content out tr h
    obtain ⟨path, kv⟩ := hd
    cases hr : read (trimLeftSlash path) with
    | error e =>
      simp [runNestedPass, hr] at h
    | ok o =>
      cases o with
      | none =>
        simp [runNestedPass, hr] at h
      | some sec =>
        cases hsub : substNestedKV parse path sec kv content with
        | error e =>
          simp [runNestedPass, hr, hsub] at h
        | ok c2 =>
          cases hrec : runNestedPass read parse rest c2 with
          | error e =>
            simp [runNestedPass, hr, hsub, hrec] at h
          | ok pr =>
            obtain ⟨c3, tr3⟩ := pr
            simp only [runNestedPass, hr, hsub, hrec, Except.ok.injEq,
              Prod.mk.injEq] at h
            rw [← h.2, List.map_cons, ih c2 c3 tr3 hrec]

theorem runDecodesPass_trace (read : String → Except Err (Option Secret))
    (codecs : List (String × CodecMarshal)) :
    ∀ (decode : List (String × String)) (content out : String)
      (tr : List String),
      runDecodesPass read codecs decode content = .ok (out, tr) →
      tr = decode.map Prod.fst := by
  intro decode
  induction decode with
  | nil =>
    intro content out tr h
    rw [runDecodesPass] at h
    simp only [Except.ok.injEq, Prod.mk.injEq] at h
    simp [h.2.symm]
  | cons hd rest ih =>
    intro content out tr h
    obtain ⟨path, k⟩ := hd
    cases hr : read path with
    | error e =>
      simp [runDecodesPass, hr] at h
    | ok o =>
      cases o with
      | none =>
        simp [runDecodesPass, hr] at h
      | some sec =>
        cases hd2 : sec.data with
        | none =>
          simp [runDecodesPass, hr, hd2] at h
        | some d =>
          cases hty : assocFind d CodecTypeKey with
          | none =>
            simp [runDecodesPass, hr, hd2, hty] at h
          | some v =>
            cases v with
            | str enc =>
              cases hci : assocFind codecs enc with
              | none =>
                simp [runDecodesPass, hr, hd2, hty, hci] at h
              | some marshal =>
                cases hma : marshal path (d.filter (fun e => e.1 ≠ CodecTypeKey)) with
                | error e =>
                  simp only [runDecodesPass, hr, hd2, hty, hci, hma] at h
                  exact Except.noConfusion h
                | ok b =>
                  cases hrec : runDecodesPass read codecs rest (replaceAllStr content k b) with
                  | error e =>
                    simp only [runDecodesPass, hr, hd2, hty, hci, hma, hrec] at h
                    exact Except.noConfusion h
                  | ok pr =>
                    obtain ⟨c3, tr3⟩ := pr
                    simp only [runDecodesPass, hr, hd2, hty, hci, hma, hrec,
                      Except.ok.injEq, Prod.mk.injEq] at h
                    rw [← h.2, List.map_cons, ih _ c3 tr3 hrec]
            | arr a =>
              simp [runDecodesPass, hr, hd2, hty] at h
            | obj f =>
              simp [runDecodesPass, hr, hd2, hty] at h
            | null =>
              simp [runDecodesPass, hr, hd2, hty] at h

theorem runSecretsPass_absent (read : String → Except Err (Option Secret)) :
    ∀ (lookup : List (String × List (String × String))),
      (∃ e ∈ lookup, read (trimLeftSlash e.1) = .ok none) →
      ∀ content, ∃ err, runSecretsPass read lookup content = .error err := by
  intro lookup
  induction lookup with
  | nil =>
    rintro ⟨e, he, _⟩
    simp at he
  | cons hd rest ih =>
    rintro ⟨e, he, hnone⟩ content
    obtain ⟨path, kv⟩ := hd
    cases hr : read (trimLeftSlash path) with
    | error e2 =>
      exact ⟨e2, by simp [runSecretsPass, hr]⟩
    | ok o =>
      cases o with
      | none =>
        exact ⟨"secret " ++ path ++ ": not found", by simp [runSecretsPass, hr]⟩
      | some sec =>
        have hemem : e ∈ rest := by
          rcases List.mem_cons.mp he with rfl | h2
          · rw [hnone] at hr
            cases hr
          · exact h2
        cases hsub : substSecretKV path sec kv content with
        | error e2 =>
          exact ⟨e2, by simp [runSecretsPass, hr, hsub]⟩
        | ok c2 =>
          obtain ⟨err, herr⟩ := ih ⟨e, hemem, hnone⟩ c2
          exact ⟨err, by simp [runSecretsPass, hr, hsub, herr]⟩

/-! ## Stat / ReadDir mount lemmas -/

theorem readDirMountScan_generic (path : String) :
    ∀ (ms : List (String × MountOutput)), ∀ e ∈ readDirMountScan path ms,
      ∀ m p, e = Entry.mount m p → m.mountType = genericType := by
  intro ms
  induction ms with
  | nil =>
    intro e he
    simp [readDirMountScan] at he
  | cons hd rest ih =>
    intro e he m p heq
    obtain ⟨name0, m0⟩ := hd
    rw [readDirMountScan] at he
    by_cases hty : m0.mountType ≠ genericType
    · rw [if_pos hty] at he
      exact ih e he m p heq
    · rw [if_neg hty] at he
      cases hw : mountWalk path (("/" ++ trimRightSlash name0).data.length + 2)
          ("/" ++ trimRightSlash name0)
          (dirStr ("/" ++ trimRightSlash name0)) with
      | none =>
        rw [hw] at he
        exact ih e he m p heq
      | some base =>
        rw [hw] at he
        rcases List.mem_cons.mp he with rfl | h2
        · have hm : m0 = m := (Entry.mount.injEq m0 base m p).mp heq |>.1
          rw [← hm]
          exact not_not.mp hty
        · exact ih e h2 m p heq

theorem keysEntriesAux_no_mounts (path : String) (s : Secret) :
    ∀ (vs : List GoValue) (es : List Entry),
      keysEntriesAux path s vs = .ok es →
      ∀ e ∈ es, ∀ m p, e = Entry.mount m p → False := by
  intro vs
  induction vs with
  | nil =>
    intro es h e he
    rw [keysEntriesAux] at h
    cases h
    simp at he
  | cons v rest ih =>
    intro es h e he m p heq
    cases v with
    | str key =>
      cases hrec : keysEntriesAux path s rest with
      | error e2 =>
        simp only [keysEntriesAux, hrec] at h
        exact Except.noConfusion h
      | ok es2 =>
        simp only [keysEntriesAux, hrec, Except.ok.injEq] at h
        subst h
        rcases List.mem_cons.mp he with rfl | h2
        · exact Entry.noConfusion heq
        · exact ih es2 hrec e h2 m p heq
    | arr a =>
      simp only [keysEntriesAux] at h
      exact Except.noConfusion h
    | obj f =>
      simp only [keysEntriesAux] at h
      exact Except.noConfusion h
    | null =>
      simp only [keysEntriesAux] at h
      exact Except.noConfusion h

theorem readDirCont_mounts_generic (env : Env) (st' : ClientState)
    (tr1 : List RemoteOp) (path : String) (ms : List (String × MountOutput))
    (infos : List Entry) (st2 : ClientState) (tr : List RemoteOp)
    (h : readDirCont env st' tr1 path ms = (.ok infos, st2, tr)) :
    ∀ e ∈ infos, ∀ m p, e = Entry.mount m p → m.mountType = genericType := by
  intro e he m p heq
  cases hl : env.list (trimLeftSlash path) with
  | error e2 =>
    simp only [readDirCont, hl, Prod.mk.injEq] at h
    exact Except.noConfusion h.1
  | ok o =>
    cases o with
    | none =>
      simp only [readDirCont, hl, Prod.mk.injEq, Except.ok.injEq] at h
      rw [← h.1] at he
      exact readDirMountScan_generic path ms e he m p heq
    | some s2 =>
      cases hk : keysEntries path s2 with
      | error e2 =>
        simp only [readDirCont, hl, hk, Prod.mk.injEq] at h
        exact Except.noConfusion h.1
      | ok es =>
        simp only [readDirCont, hl, hk, Prod.mk.injEq, Except.ok.injEq] at h
        rw [← h.1] at he
        rcases List.mem_append.mp he with h2 | h2
        · exact readDirMountScan_generic path ms e h2 m p heq
        · exfalso
          rw [keysEntries] at hk
          cases hg : Secret.get s2 "keys" with
          | none =>
            simp only [hg] at hk
            exact Except.noConfusion hk
          | some v =>
            cases v with
            | arr vs =>
              simp only [hg] at hk
              exact keysEntriesAux_no_mounts path s2 vs es hk e h2 m p heq
            | str a =>
              simp only [hg] at hk
              exact Except.noConfusion hk
            | obj a =>
              simp only [hg] at hk
              exact Except.noConfusion hk
            | null =>
              simp only [hg] at hk
              exact Except.noConfusion hk

theorem statMountScan_hit (path name : String) (m : MountOutput) :
    ∀ ms : List (String × MountOutput), (name, m) ∈ ms →
      ("/" ++ name = path ∨ hasPrefixStr ("/" ++ name) (path ++ "/") = true) →
      ∃ m2 p2, statMountScan ms path = some (Entry.mount m2 p2) := by
  intro ms
  induction ms with
  | nil =>
    intro h
    simp at h
  | cons hd rest ih =>
    intro hmem hmatch
    obtain ⟨n0, m0⟩ := hd
    rw [statMountScan]
    by_cases h1 : "/" ++ n0 = path
    · rw [if_pos h1]
      exact ⟨m0, "/" ++ n0, rfl⟩
    · rw [if_neg h1]
      by_cases h2 : hasPrefixStr ("/" ++ n0) (path ++ "/") = true
      · rw [if_pos h2]
        exact ⟨m0, path ++ "/", rfl⟩
      · rw [if_neg h2]
        apply ih ?_ hmatch
        rcases List.mem_cons.mp hmem with heq | h3
        · obtain ⟨hn, hm⟩ := Prod.mk.injEq .. ▸ heq
          exfalso
          rcases hmatch with hc | hc
          · exact h1 (hn ▸ hc)
          · exact h2 (hn ▸ hc)
        · exact h3

theorem statMountPhase_hit (env : Env) (now1 now2 : Int) (st : ClientState)
    (path : String) (tr0 : List RemoteOp) (ms : List (String × MountOutput))
    (st2 : ClientState) (k : Nat) (ent : Entry)
    (hmf : mountsFn env.listMounts now1 now2 st = (.ok ms, st2, k))
    (hscan : statMountScan ms path = some ent) :
    statMountPhase env now1 now2 st path tr0 =
      (.ok ent, st2, tr0 ++ (if k = 0 then [] else [RemoteOp.listMounts])) := by
  unfold statMountPhase
  simp only [hmf, hscan]

theorem statListPhase_mount (env : Env) (now1 now2 : Int) (st : ClientState)
    (path : String) (tr0 : List RemoteOp) (ms : List (String × MountOutput))
    (st2 : ClientState) (k : Nat) (ent : Entry)
    (hlist : env.list (trimLeftSlash path) = .ok none)
    (hmf : mountsFn env.listMounts now1 now2 st = (.ok ms, st2, k))
    (hscan : statMountScan ms path = some ent) :
    (statListPhase env now1 now2 st path tr0).1 = .ok ent := by
  unfold statListPhase
  by_cases hdir : (splitStr path).1 ≠ "/"
  · rw [if_pos hdir, hlist,
      statMountPhase_hit env now1 now2 st path _ ms st2 k ent hmf hscan]
  · rw [if_neg hdir,
      statMountPhase_hit env now1 now2 st path tr0 ms st2 k ent hmf hscan]

/-! ## Glob matcher correctness -/

theorem matchAtoms_iff : ∀ (as : List Atom) (s : List Char),
    matchAtoms as s = true ↔ AtomSem as s := by
  intro as
  induction as with
  | nil =>
    intro s
    simp [matchAtoms, AtomSem, List.isEmpty_iff]
  | cons a as ih =>
    intro s
    cases a with
    | lit c =>
      cases s with
      | nil => simp [matchAtoms, AtomSem]
      | cons c' s' =>
        simp only [matchAtoms, AtomSem, Bool.and_eq_true, beq_iff_eq, ih s']
        constructor
        · rintro ⟨rfl, hsem⟩
          exact ⟨s', rfl, hsem⟩
        · rintro ⟨t, heq, hsem⟩
          obtain ⟨rfl, rfl⟩ := List.cons.injEq .. ▸ heq
          exact ⟨rfl, hsem⟩
    | dot =>
      cases s with
      | nil => simp [matchAtoms, AtomSem]
      | cons c' s' =>
        simp only [matchAtoms, AtomSem, ih s']
        constructor
        · intro hsem
          exact ⟨c', s', rfl, hsem⟩
        · rintro ⟨d, t, heq, hsem⟩
          obtain ⟨rfl, rfl⟩ := List.cons.injEq .. ▸ heq
          exact hsem
    | star =>
      simp only [matchAtoms, AtomSem, List.any_eq_true]
      constructor
      · rintro ⟨t, ht, hm⟩
        obtain ⟨u, hu⟩ := (List.mem_tails t s).mp ht
        exact ⟨u, t, hu.symm, (ih t).mp hm⟩
      · rintro ⟨u, t, rfl, hsem⟩
        exact ⟨t, (List.mem_tails t (u ++ t)).mpr ⟨u, rfl⟩, (ih t).mpr hsem⟩

theorem AtomSem_append_star : ∀ (as : List Atom) (s : List Char),
    AtomSem (as ++ [Atom.star]) s ↔ ∃ t u, s = t ++ u ∧ AtomSem as t := by
  intro as
  induction as with
  | nil =>
    intro s
    simp only [List.nil_append, AtomSem]
    constructor
    · intro _
      exact ⟨[], s, rfl, rfl⟩
    · intro _
      exact ⟨s, [], by simp, rfl⟩
  | cons a as ih =>
    intro s
    cases a with
    | lit c =>
      simp only [List.cons_append, AtomSem]
      constructor
      · rintro ⟨t, rfl, h⟩
        obtain ⟨t2, u, rfl, h2⟩ := (ih t).mp h
        exact ⟨c :: t2, u, rfl, t2, rfl, h2⟩
      · rintro ⟨T, u, rfl, t2, rfl, h2⟩
        exact ⟨t2 ++ u, rfl, (ih (t2 ++ u)).mpr ⟨t2, u, rfl, h2⟩⟩
    | dot =>
      simp only [List.cons_append, AtomSem]
      constructor
      · rintro ⟨d, t, rfl, h⟩
        obtain ⟨t2, u, rfl, h2⟩ := (ih t).mp h
        exact ⟨d :: t2, u, rfl, d, t2, rfl, h2⟩
      · rintro ⟨T, u, rfl, d, t2, rfl, h2⟩
        exact ⟨d, t2 ++ u, rfl, (ih (t2 ++ u)).mpr ⟨t2, u, rfl, h2⟩⟩
    | star =>
      simp only [List.cons_append, AtomSem]
      constructor
      · rintro ⟨v, t, rfl, h⟩
        obtain ⟨t2, u, rfl, h2⟩ := (ih t).mp h
        exact ⟨v ++ t2, u, by rw [List.append_assoc], v, t2, rfl, h2⟩
      · rintro ⟨T, u, rfl, v, w, rfl, h2⟩
        exact ⟨v, w ++ u, by rw [List.append_assoc],
          (ih (w ++ u)).mpr ⟨w, u, rfl, h2⟩⟩

theorem AtomSem_map_lit_append : ∀ (l : List Char) (as : List Atom)
    (s : List Char),
    AtomSem (l.map Atom.lit ++ as) s ↔ ∃ t, s = l ++ t ∧ AtomSem as t := by
  intro l
  induction l with
  | nil =>
    intro as s
    simp
  | cons c l' ih =>
    intro as s
    simp only [List.map_cons, List.cons_append, AtomSem]
    constructor
    · rintro ⟨t, rfl, h⟩
      obtain ⟨t2, rfl, h2⟩ := (ih as t).mp h
      exact ⟨t2, rfl, h2⟩
    · rintro ⟨t, heq, h⟩
      refine ⟨l' ++ t, by rw [heq], (ih as (l' ++ t)).mpr ⟨t, rfl, h⟩⟩

theorem AtomSem_atomsOfGlob : ∀ (p : List Char) (s : List Char),
    AtomSem (atomsOfGlob p) s ↔ GlobSpec p s := by
  intro p
  induction p with
  | nil =>
    intro s
    simp [atomsOfGlob, AtomSem, GlobSpec]
  | cons c p' ih =>
    intro s
    rw [show atomsOfGlob (c :: p') = atomOf c :: atomsOfGlob p' from rfl,
      GlobSpec]
    by_cases h1 : c = '*'
    · subst h1
      rw [if_pos rfl, show atomOf '*' = Atom.star from rfl]
      simp only [AtomSem]
      constructor
      · rintro ⟨u, t, rfl, h⟩
        exact ⟨u, t, rfl, (ih t).mp h⟩
      · rintro ⟨u, t, rfl, h⟩
        exact ⟨u, t, rfl, (ih t).mpr h⟩
    · by_cases h2 : c = '?'
      · subst h2
        rw [if_neg h1, if_pos rfl, show atomOf '?' = Atom.dot from rfl]
        simp only [AtomSem]
        constructor
        · rintro ⟨d, t, rfl, h⟩
          exact ⟨d, t, rfl, (ih t).mp h⟩
        · rintro ⟨d, t, rfl, h⟩
          exact ⟨d, t, rfl, (ih t).mpr h⟩
      · rw [if_neg h1, if_neg h2,
          show atomOf c = Atom.lit c by rw [atomOf, if_neg h1, if_neg h2]]
        simp only [AtomSem]
        constructor
        · rintro ⟨t, rfl, h⟩
          exact ⟨t, rfl, (ih t).mp h⟩
        · rintro ⟨t, rfl, h⟩
          exact ⟨t, rfl, (ih t).mpr h⟩

theorem replaceAllA_single (a : Char) (r : List Char) :
    ∀ (s : List Char) (fuel : Nat), s.length ≤ fuel →
      replaceAllA [a] r fuel s =
        s.flatMap (fun c => if c = a then r else [c]) := by
  intro s
  induction s with
  | nil =>
    intro fuel _
    cases fuel <;> simp [replaceAllA]
  | cons c s' ih =>
    intro fuel hf
    cases fuel with
    | zero => simp at hf
    | succ f =>
      rw [replaceAllA]
      by_cases hc : c = a
      · have hpre : [a].isPrefixOf (c :: s') = true := by
          simp [List.isPrefixOf, hc]
        rw [if_pos hpre]
        simp only [List.length_singleton, List.drop_succ_cons, List.drop_zero]
        rw [ih f (Nat.le_of_succ_le_succ hf)]
        simp [hc]
      · have hpre : [a].isPrefixOf (c :: s') = false := by
          simp [List.isPrefixOf]
          exact fun h => hc h.symm
        rw [if_neg (by simp [hpre])]
        rw [ih f (Nat.le_of_succ_le_succ hf)]
        simp [hc]

theorem globExpression_data (base : String) :
    (globExpression base).data = expandGlob base.data := by
  have h1 : (replaceAllStr base "?" ".").data
      = base.data.flatMap (fun c => if c = '?' then ['.'] else [c]) := by
    rw [replaceAllStr, if_neg (by decide)]
    exact replaceAllA_single '?' ['.'] base.data base.data.length le_rfl
  have h2 : (globExpression base).data
      = (replaceAllStr base "?" ".").data.flatMap
          (fun c => if c = '*' then ['.', '*'] else [c]) := by
    rw [globExpression, replaceAllStr, if_neg (by decide)]
    exact replaceAllA_single '*' ['.', '*'] _ _ le_rfl
  rw [h2, h1]
  rw [expandGlob]
  induction base.data with
  | nil => rfl
  | cons c l ih =>
    rw [List.flatMap_cons, List.flatMap_cons, List.flatMap_append, ih]
    congr 1
    by_cases h1 : c = '?'
    · rw [if_pos h1, expandChar, if_pos h1]
      rfl
    · rw [if_neg h1, expandChar, if_neg h1]
      by_cases h2 : c = '*'
      · rw [if_pos h2]
        simp [List.flatMap_cons, h2]
      · rw [if_neg h2]
        simp [List.flatMap_cons, h1, h2]

theorem expandGlob_cons (c : Char) (p : List Char) :
    expandGlob (c :: p) = expandChar c ++ expandGlob p := by
  simp [expandGlob]

theorem expandGlob_head (p : List Char) :
    expandGlob p = [] ∨
      ∃ d rest, expandGlob p = d :: rest ∧ ¬(d = '*') := by
  cases p with
  | nil => exact Or.inl rfl
  | cons c p' =>
    right
    rw [expandGlob_cons, expandChar]
    by_cases h1 : c = '?'
    · rw [if_pos h1]
      exact ⟨'.', expandGlob p', rfl, by decide⟩
    · rw [if_neg h1]
      by_cases h2 : c = '*'
      · rw [if_pos h2]
        exact ⟨'.', '*' :: expandGlob p', rfl, by decide⟩
      · rw [if_neg h2]
        exact ⟨c, expandGlob p', rfl, h2⟩

theorem expandGlob_eq_nil (p : List Char) : expandGlob p = [] → p = [] := by
  cases p with
  | nil => intro _; rfl
  | cons c p' =>
    intro h
    exfalso
    rw [expandGlob_cons, expandChar] at h
    revert h
    by_cases h1 : c = '?'
    · rw [if_pos h1]
      intro h
      exact List.noConfusion h
    · rw [if_neg h1]
      by_cases h2 : c = '*'
      · rw [if_pos h2]
        intro h
        exact List.noConfusion h
      · rw [if_neg h2]
        intro h
        exact List.noConfusion h

theorem regexAtoms_backslash (c : Char) (rest : List Char) :
    regexAtoms ('\\' :: c :: rest) = Atom.lit c :: regexAtoms rest := by
  rw [regexAtoms.eq_def]
  simp

theorem regexAtoms_lit_cons (c : Char) (rest : List Char)
    (h1 : ¬(c = '\\')) (h2 : ¬(c = '.')) :
    regexAtoms (c :: rest) = Atom.lit c :: regexAtoms rest := by
  rw [regexAtoms.eq_def]
  show (if c = '\\' then _ else if c = '.' then _ else
    Atom.lit c :: regexAtoms rest) = Atom.lit c :: regexAtoms rest
  rw [if_neg h1, if_neg h2]

theorem regexAtoms_dot_star (rest : List Char) :
    regexAtoms ('.' :: '*' :: rest) = Atom.star :: regexAtoms rest := by
  rw [regexAtoms.eq_def]
  simp

theorem regexAtoms_dot_other (d : Char) (rest : List Char) (hd : ¬(d = '*')) :
    regexAtoms ('.' :: d :: rest) = Atom.dot :: regexAtoms (d :: rest) := by
  rw [regexAtoms.eq_def]
  show (if ('.' : Char) = '\\' then _ else if ('.' : Char) = '.' then
    (if d = '*' then Atom.star :: regexAtoms rest
     else Atom.dot :: regexAtoms (d :: rest)) else _)
    = Atom.dot :: regexAtoms (d :: rest)
  rw [if_neg (by decide : ¬(('.' : Char) = '\\')), if_pos rfl, if_neg hd]

theorem regexAtoms_expandGlob : ∀ (p : List Char),
    (∀ c ∈ p, c = '*' ∨ c = '?' ∨ regexSpecial c = false) →
    regexAtoms (expandGlob p) = atomsOfGlob p := by
  intro p
  induction p with
  | nil => intro _; rfl
  | cons c p' ih =>
    intro hp
    have hc := hp c (List.mem_cons_self c p')
    have hrest := fun x hx => hp x (List.mem_cons_of_mem c hx)
    rw [expandGlob_cons,
      show atomsOfGlob (c :: p') = atomOf c :: atomsOfGlob p' from rfl]
    by_cases h1 : c = '?'
    · have hcs : ¬(c = '*') := by rw [h1]; decide
      rw [show expandChar c = ['.'] by rw [expandChar, if_pos h1],
        show atomOf c = Atom.dot by rw [atomOf, if_neg hcs, if_pos h1]]
      rcases expandGlob_head p' with hnil | ⟨d, rest, heq, hd⟩
      · rw [List.singleton_append, hnil, expandGlob_eq_nil p' hnil]
        decide
      · rw [List.singleton_append, heq, regexAtoms_dot_other d rest hd,
          ← heq, ih hrest]
    · by_cases h2 : c = '*'
      · rw [show expandChar c = ['.', '*'] by
            rw [expandChar, if_neg h1, if_pos h2],
          show atomOf c = Atom.star by rw [atomOf, if_pos h2],
          show (['.', '*'] : List Char) ++ expandGlob p'
            = '.' :: '*' :: expandGlob p' from rfl,
          regexAtoms_dot_star, ih hrest]
      · have hns : regexSpecial c = false := by
          rcases hc with h | h | h
          · exact absurd h h2
          · exact absurd h h1
          · exact h
        have hcb : ¬(c = '\\') := by
          intro h
          rw [h] at hns
          exact Bool.noConfusion hns
        have hcd : ¬(c = '.') := by
          intro h
          rw [h] at hns
          exact Bool.noConfusion hns
        rw [show expandChar c = [c] by rw [expandChar, if_neg h1, if_neg h2],
          show atomOf c = Atom.lit c by rw [atomOf, if_neg h2, if_neg h1],
          List.singleton_append, regexAtoms_lit_cons c _ hcb hcd, ih hrest]

theorem regexAtoms_escChar_append : ∀ (l : List Char) (rest : List Char),
    regexAtoms (l.flatMap escChar ++ rest)
      = l.map Atom.lit ++ regexAtoms rest := by
  intro l
  induction l with
  | nil => intro rest; simp
  | cons c l' ih =>
    intro rest
    rw [List.flatMap_cons, List.append_assoc]
    by_cases hs : regexSpecial c = true
    · rw [show escChar c = ['\\', c] by rw [escChar, if_pos hs],
        show (['\\', c] : List Char) ++ (l'.flatMap escChar ++ rest)
          = '\\' :: c :: (l'.flatMap escChar ++ rest) from rfl,
        regexAtoms_backslash, ih, List.map_cons]
      rfl
    · have hcb : ¬(c = '\\') := fun h => hs (by rw [h]; decide)
      have hcd : ¬(c = '.') := fun h => hs (by rw [h]; decide)
      rw [show escChar c = [c] by rw [escChar, if_neg hs],
        List.singleton_append, regexAtoms_lit_cons c _ hcb hcd, ih,
        List.map_cons]
      rfl

/-! ## Claim theorems -/

/-- C9: every entry's permission-mode accessor returns `0755` exactly when
its directory flag is set and `0644` otherwise; root and mount entries
always report `0755`. -/
theorem C9_entry_modes :
    (∀ e : Entry, e.mode = if e.isDir then 0o755 else 0o644) ∧
    Entry.root.mode = 0o755 ∧ (∀ m p, (Entry.mount m p).mode = 0o755) := by
  refine ⟨fun e => ?_, rfl, fun m p => rfl⟩
  cases e with
  | root => rfl
  | mount m p => rfl
  | secret s p k => rfl

/-- C4: within the one-minute TTL, `mounts` serves the cached mapping with
no remote call and no state change; after the TTL, a failing list-mounts
call propagates its error and leaves the cached mapping and its timestamp
untouched. -/
theorem C4_mounts_cache (lm : Except Err (List (String × MountOutput)))
    (now1 now2 : Int) (c : ClientState) :
    (¬(now1 - mountRefresh > c.cachedMountsTime) →
      mountsFn lm now1 now2 c = (.ok c.cachedMounts, c, 0)) ∧
    (∀ e, now1 - mountRefresh > c.cachedMountsTime → lm = .error e →
      mountsFn lm now1 now2 c = (.error e, c, 1)) := by
  constructor
  · intro h
    unfold mountsFn
    rw [if_neg h]
  · intro e h he
    subst he
    unfold mountsFn
    rw [if_pos h]

theorem C4_witness :
    mountsFn (Except.ok []) 50 51 exStateM =
      (Except.ok exStateM.cachedMounts, exStateM, 0) ∧
    mountsFn (Except.error "boom") 200000000000 7 exStateM =
      (Except.error "boom", exStateM, 1) :=
  ⟨(C4_mounts_cache (Except.ok []) 50 51 exStateM).1 (by decide),
   (C4_mounts_cache (Except.error "boom") 200000000000 7 exStateM).2 "boom"
     (by decide) rfl⟩

/-- C5: a pattern without wildcard characters makes `Glob` behave exactly
as `Stat` on the same path, returning its single result wrapped in a
one-element collection and passing its error through unchanged. -/
theorem C5_glob_no_wildcard_is_stat (env : Env) (now1 now2 : Int)
    (st : ClientState) (pattern : String)
    (h : isGlobPattern pattern = false) :
    glob env now1 now2 st pattern =
      (match stat env now1 now2 st pattern with
       | (r, st', tr) => (r.map (fun i => [i]), st', tr)) := by
  unfold glob
  rw [if_pos h]

theorem C5_witness :
    isGlobPattern "/secret/foo" = false ∧
    glob exEnv 0 0 exState0 "/secret/foo" =
      (match stat exEnv 0 0 exState0 "/secret/foo" with
       | (r, st', tr) => (r.map (fun i => [i]), st', tr)) :=
  ⟨by decide,
   C5_glob_no_wildcard_is_stat exEnv 0 0 exState0 "/secret/foo" (by decide)⟩

/-- C6: a wildcard in the directory portion of the resolved pattern makes
`Glob` fail with "directory globbing not supported" while leaving the
client state unchanged and performing no remote call at all (empty remote
trace). -/
theorem C6_dir_glob_unsupported (env : Env) (now1 now2 : Int)
    (st : ClientState) (pattern : String)
    (h1 : isGlobPattern pattern = true)
    (h2 : (splitStr (abspathStr st.Path pattern)).1.data.any
        (fun c => c == '*' || c == '?') = true) :
    glob env now1 now2 st pattern =
      (.error "directory globbing not supported", st, []) := by
  unfold glob
  rw [if_neg (by simp [h1]), if_pos h2]

theorem C6_witness :
    isGlobPattern "/a*/b*" = true ∧
    (splitStr (abspathStr exState0.Path "/a*/b*")).1.data.any
      (fun c => c == '*' || c == '?') = true ∧
    glob exEnv 0 0 exState0 "/a*/b*" =
      (.error "directory globbing not supported", exState0, []) :=
  ⟨by decide, by decide,
   C6_dir_glob_unsupported exEnv 0 0 exState0 "/a*/b*" (by decide) (by decide)⟩

/-- C7 counterexample: over arbitrary base paths, as the claim quantifies,
resolution is not idempotent — the relative base "a" is re-applied to its
own output. -/
theorem C7_counterexample :
    abspathStr "a" (abspathStr "a" "b") ≠ abspathStr "a" "b" := by decide

/-- C7 (amended): for every absolute base path — the only kind the program
ever installs as a working path — resolution is idempotent. -/
theorem C7_abspath_idem (base p : String) (h : isAbsStr base = true) :
    abspathStr base (abspathStr base p) = abspathStr base p :=
  abspathStr_idem base p h

theorem C7_witness :
    isAbsStr "/foo" = true ∧
    abspathStr "/foo" (abspathStr "/foo" "x/../y/") =
      abspathStr "/foo" "x/../y/" :=
  ⟨by decide, C7_abspath_idem "/foo" "x/../y/" (by decide)⟩

/-- C2 (code behaviour at the failing input): after a successful `Write`
and `Close` on `SafeOutputWriter("/tmp/out", 0644)`, no file exists at the
target path — the bytes sit in the never-renamed temp file, with the
requested mode.  The no-write half of the claim does hold: closing an
unwritten writer touches no file. -/
theorem C2_close_never_renames :
    ((sowClose (sowWrite (sowNew "/tmp/out" 420) [] "/tmp/.out.123"
        "hello world").1
      (sowWrite (sowNew "/tmp/out" 420) [] "/tmp/.out.123"
        "hello world").2).2 |> fun fs =>
      fsGet fs "/tmp/out" = none ∧
      fsGet fs "/tmp/.out.123" = some (420, "hello world")) ∧
    (sowClose (sowNew "/tmp/out" 420) []).2 = [] := by
  constructor
  · exact ⟨rfl, rfl⟩
  · rfl

/-- C1 counterexample: with a lookup table holding the single path
`secret/foo`, registered by one `secret` call, a successful render reads
that path twice — once in the secrets pass and once in the nested pass —
not once as the claim states. -/
theorem C1_counterexample :
    (match executeTemplatePipeline exRead exParse []
        exTState.lookup exTState.decode "A" with
     | Except.ok (_, tr) => tr.count "secret/foo"
     | Except.error _ => 0) ≠ 1 := by decide

/-- C1 (amended): on a successful render, every distinct path recorded in
the lookup table is read exactly twice — once by the secrets pass and once
by the nested pass — regardless of how many distinct keys or function kinds
reference it; entries of the separate decode table contribute their own
read each (the path is assumed not to double as a decode path here). -/
theorem C1_two_reads_per_lookup_path
    (read : String → Except Err (Option Secret))
    (parse : String → Option (List (String × GoValue)))
    (codecs : List (String × CodecMarshal))
    (lookup : List (String × List (String × String)))
    (decode : List (String × String)) (content out : String)
    (tr : List String)
    (hrun : executeTemplatePipeline read parse codecs lookup decode content
      = .ok (out, tr))
    (p : String)
    (hp : p ∈ lookup.map (fun e => trimLeftSlash e.1))
    (hnodup : (lookup.map (fun e => trimLeftSlash e.1)).Nodup)
    (hdec : p ∉ decode.map Prod.fst) :
    tr.count p = 2 := by
  unfold executeTemplatePipeline at hrun
  cases hd : runDecodesPass read codecs decode content with
  | error e =>
    simp only [hd] at hrun
    exact Except.noConfusion hrun
  | ok pr1 =>
    obtain ⟨c1, t1⟩ := pr1
    cases hs : runSecretsPass read lookup c1 with
    | error e =>
      simp only [hd, hs] at hrun
      exact Except.noConfusion hrun
    | ok pr2 =>
      obtain ⟨c2, t2⟩ := pr2
      cases hn : runNestedPass read parse lookup c2 with
      | error e =>
        simp only [hd, hs, hn] at hrun
        exact Except.noConfusion hrun
      | ok pr3 =>
        obtain ⟨c3, t3⟩ := pr3
        simp only [hd, hs, hn, Except.ok.injEq, Prod.mk.injEq] at hrun
        obtain ⟨-, htr⟩ := hrun
        have e1 := runDecodesPass_trace read codecs decode content c1 t1 hd
        have e2 := runSecretsPass_trace read lookup c1 c2 t2 hs
        have e3 := runNestedPass_trace read parse lookup c2 c3 t3 hn
        subst e1 e2 e3
        rw [← htr, List.count_append, List.count_append,
          List.count_eq_zero_of_not_mem hdec,
          List.count_eq_one_of_mem hnodup hp]

theorem C1_witness :
    executeTemplatePipeline exRead exParse [] exTState.lookup exTState.decode
      "A" = .ok ("A", ["secret/foo", "secret/foo"]) ∧
    (["secret/foo", "secret/foo"] : List String).count "secret/foo" = 2 :=
  ⟨rfl,
   C1_two_reads_per_lookup_path exRead exParse [] exTState.lookup
     exTState.decode "A" "A" ["secret/foo", "secret/foo"] rfl
     "secret/foo" (by decide) (by decide) (by decide)⟩

/-- C3: whenever some path registered in the lookup table reads back absent
(nil), the render pipeline aborts with an error, and the command run exits
with code 1 without writing any output bytes. -/
theorem C3_failfast (read : String → Except Err (Option Secret))
    (parse : String → Option (List (String × GoValue)))
    (codecs : List (String × CodecMarshal)) (ts : TState) (content : String)
    (hp : ∃ e ∈ ts.lookup, read (trimLeftSlash e.1) = Except.ok none) :
    (∃ err, executeTemplatePipeline read parse codecs ts.lookup ts.decode
        content = .error err) ∧
    templateCommandRun read parse codecs (.ok (ts, content)) = (1, none) := by
  have habort : ∀ c, ∃ err,
      executeTemplatePipeline read parse codecs ts.lookup ts.decode c
        = .error err := by
    intro c
    cases hd : runDecodesPass read codecs ts.decode c with
    | error e =>
      exact ⟨e, by unfold executeTemplatePipeline; simp only [hd]⟩
    | ok pr =>
      obtain ⟨c1, t1⟩ := pr
      obtain ⟨err, herr⟩ := runSecretsPass_absent read ts.lookup hp c1
      exact ⟨err, by unfold executeTemplatePipeline; simp only [hd, herr]⟩
  refine ⟨habort content, ?_⟩
  obtain ⟨err, herr⟩ := habort content
  unfold templateCommandRun
  simp only [herr]

theorem C3_witness :
    (∃ err, executeTemplatePipeline exReadNone exParse [] exTState.lookup
        exTState.decode "A" = .error err) ∧
    templateCommandRun exReadNone exParse [] (.ok (exTState, "A")) =
      (1, none) :=
  C3_failfast exReadNone exParse [] exTState "A"
    ⟨("secret/foo", [("k", "_VAULT_STRING_ab12cd34ef56aa77_")]),
     by decide, rfl⟩

/-- C10: in any directory listing, `ReadDir`'s mount scan only ever emits
mount entries for generic-type mounts (so a non-generic mount never appears
in a listing); `Stat`, whose mount scan does not filter by type, still
returns a mount entry for any cached mount — of any type — whose name
matches the probed path exactly or by the `path + "/"` prefix, provided the
leaf and folder probes came back empty. -/
theorem C10_mount_type_filter (env : Env) (now1 now2 : Int)
    (st : ClientState) :
    (∀ path0 infos st2 tr,
      readDir env now1 now2 st path0 = (.ok infos, st2, tr) →
      ∀ e ∈ infos, ∀ m p, e = Entry.mount m p → m.mountType = genericType) ∧
    (∀ path0 name m ms st2 k,
      abspathStr st.Path path0 ≠ "/" →
      env.read (trimLeftSlash (abspathStr st.Path path0)) = .ok none →
      env.list (trimLeftSlash (abspathStr st.Path path0)) = .ok none →
      mountsFn env.listMounts now1 now2 st = (.ok ms, st2, k) →
      (name, m) ∈ ms →
      ("/" ++ name = abspathStr st.Path path0 ∨
        hasPrefixStr ("/" ++ name) (abspathStr st.Path path0 ++ "/") = true) →
      ∃ m2 p2, (stat env now1 now2 st path0).1 = .ok (Entry.mount m2 p2)) := by
  constructor
  · intro path0 infos st2 tr h
    unfold readDir at h
    rcases hmf : mountsFn env.listMounts now1 now2 st with ⟨mres, st3, n⟩
    cases mres with
    | error e2 =>
      simp only [hmf] at h
      by_cases hperm : isPermissionDenied e2 = true
      · rw [if_pos hperm] at h
        exact readDirCont_mounts_generic env st3 _ _ [] infos st2 tr h
      · rw [if_neg hperm] at h
        simp only [Prod.mk.injEq] at h
        exact absurd h.1 (fun hc => Except.noConfusion hc)
    | ok ms =>
      simp only [hmf] at h
      exact readDirCont_mounts_generic env st3 _ _ ms infos st2 tr h
  · intro path0 name m ms st2 k hroot hread hlist hmf hmem hmatch
    obtain ⟨m2, p2, hscan⟩ :=
      statMountScan_hit (abspathStr st.Path path0) name m ms hmem hmatch
    have hstat : stat env now1 now2 st path0 =
        statListPhase env now1 now2 st (abspathStr st.Path path0)
          [RemoteOp.read (trimLeftSlash (abspathStr st.Path path0))] := by
      unfold stat
      rw [if_neg hroot, hread]
    rw [hstat,
      statListPhase_mount env now1 now2 st (abspathStr st.Path path0) _
        ms st2 k (Entry.mount m2 p2) hlist hmf hscan]
    exact ⟨m2, p2, rfl⟩

theorem C10_witness :
    (∀ e ∈ [Entry.mount ⟨"generic"⟩ "/secret"], ∀ m p,
      e = Entry.mount m p → m.mountType = genericType) ∧
    (∃ m2 p2, (stat exEnv 50 50 exStateM "/sys").1 =
      .ok (Entry.mount m2 p2)) :=
  ⟨(C10_mount_type_filter exEnv 50 50 exStateM).1 "/"
     [Entry.mount ⟨"generic"⟩ "/secret"] exStateM [RemoteOp.list ""] rfl,
   (C10_mount_type_filter exEnv 50 50 exStateM).2 "/sys" "sys/" ⟨"system"⟩
     exStateM.cachedMounts exStateM 0 (by decide) rfl rfl rfl (by decide)
     (Or.inr (by decide))⟩

/-- C8: the filters `Glob` compiles behave as the claim states on patterns
whose base contains no other regex metacharacters: `?` matches any single
character, `*` any run of characters, other characters themselves; every
compiled pattern is anchored at the start; when the resolved directory is
the root the match is prefix-anchored only (an arbitrary tail may follow
the matched base), while for a non-root directory the match is fully
anchored start-to-end against `dir ++ "/" ++ base`. -/
theorem C8_filter_semantics (dir base nm : String)
    (hbase : ∀ c ∈ base.data, c = '*' ∨ c = '?' ∨ regexSpecial c = false) :
    (globRootFilter base nm = true ↔
      ∃ s t, nm.data = '/' :: (s ++ t) ∧ GlobSpec base.data s) ∧
    (globDirFilter dir base nm = true ↔
      ∃ s, nm.data = dir.data ++ '/' :: s ∧ GlobSpec base.data s) := by
  have hexp : regexAtoms ((globExpression base).data)
      = atomsOfGlob base.data := by
    rw [globExpression_data]
    exact regexAtoms_expandGlob base.data hbase
  have hslash : regexAtoms ('/' :: (globExpression base).data)
      = Atom.lit '/' :: atomsOfGlob base.data := by
    rw [regexAtoms_lit_cons '/' _ (by decide) (by decide), hexp]
  constructor
  · rw [globRootFilter, hslash, matchAtoms_iff, AtomSem_append_star]
    constructor
    · rintro ⟨t, u, heq, hsem⟩
      obtain ⟨t', rfl, h2⟩ := hsem
      exact ⟨t', u, by rw [heq]; simp,
        (AtomSem_atomsOfGlob base.data t').mp h2⟩
    · rintro ⟨s2, t2, heq, hsem⟩
      exact ⟨'/' :: s2, t2, by rw [heq]; simp,
        s2, rfl, (AtomSem_atomsOfGlob base.data s2).mpr hsem⟩
  · rw [globDirFilter,
      show (quoteMeta dir).data = dir.data.flatMap escChar from rfl,
      regexAtoms_escChar_append, hslash, matchAtoms_iff,
      AtomSem_map_lit_append]
    constructor
    · rintro ⟨t, heq, hsem⟩
      obtain ⟨t', rfl, h2⟩ := hsem
      exact ⟨t', heq, (AtomSem_atomsOfGlob base.data t').mp h2⟩
    · rintro ⟨s2, heq, hsem⟩
      exact ⟨'/' :: s2, heq,
        s2, rfl, (AtomSem_atomsOfGlob base.data s2).mpr hsem⟩

theorem C8_witness :
    (∀ c ∈ ("a*b").data, c = '*' ∨ c = '?' ∨ regexSpecial c = false) ∧
    ((globRootFilter "a*b" "/x/aXb" = true ↔
       ∃ s t, ("/x/aXb").data = '/' :: (s ++ t) ∧ GlobSpec ("a*b").data s) ∧
     (globDirFilter "/x" "a*b" "/x/aXb" = true ↔
       ∃ s, ("/x/aXb").data = ("/x").data ++ '/' :: s ∧
         GlobSpec ("a*b").data s)) :=
  ⟨by decide, C8_filter_semantics "/x" "a*b" "/x/aXb" (by decide)⟩

end VC
